import Mathlib

/-!
# Verification of the search/anchor pipeline of the `writing` blog

Shallow embedding of the anchor-id assignment in `src/markdoc/nodes.js`
(the `document` and `heading` transforms, backed by the
`slugifyWithCounter` helper of the `@sindresorhus/slugify` dependency),
and of the search index builder / query engine described in the
specification (whose implementation file `src/markdoc/search.mjs` is
referenced by `next.config.mjs` but is not part of the provided sources).
-/

namespace Writing

/-! ## Character and word helpers -/

/-- Character of a single decimal digit (`0 ≤ n ≤ 9`; other inputs clamp to '9').
Used to model JavaScript's decimal rendering of numbers in template strings. -/
def digitChar (n : Nat) : Char :=
  match n with
  | 0 => '0' | 1 => '1' | 2 => '2' | 3 => '3' | 4 => '4'
  | 5 => '5' | 6 => '6' | 7 => '7' | 8 => '8' | _ => '9'

/-- Decimal digits, most significant first, computed with explicit fuel
so the definition is structurally recursive; the fuel is sufficient
whenever `n ≤ fuel`. -/
def decDigitsAux (fuel n : Nat) : List Char :=
  match fuel with
  | 0 => [digitChar n]
  | fuel' + 1 =>
    if n < 10 then [digitChar n]
    else decDigitsAux fuel' (n / 10) ++ [digitChar (n % 10)]

/-- Decimal digits of a natural number, most significant first,
as produced by JavaScript `${n}` interpolation. -/
def decDigits (n : Nat) : List Char := decDigitsAux n n

/-- Decimal rendering of a natural number as a string. -/
def decRepr (n : Nat) : String := String.mk (decDigits n)

/-- Value of a big-endian list of decimal digit characters (inverse of `decDigits`). -/
def decVal (l : List Char) : Nat := l.foldl (fun a c => 10 * a + (c.toNat - 48)) 0

/-- Splitting accumulator: starting a fresh word at a space, otherwise
extending the current first word. -/
def addChar (c : Char) (ws : List (List Char)) : List (List Char) :=
  if c = ' ' then [] :: ws
  else match ws with
    | [] => [[c]]
    | w :: rest => (c :: w) :: rest

/-- Split a character list into maximal space-free runs (empty runs dropped). -/
def splitWords (l : List Char) : List (List Char) :=
  (l.foldr addChar []).filter (fun w => ¬ w.isEmpty)

/-! ## Model of the `@sindresorhus/slugify` dependency

The repository's `heading` transform derives anchor ids with
`slugifyWithCounter()` from `@sindresorhus/slugify`.  That library is a
dependency, not vendored in the repository, so it is modelled here from
its documented behaviour: `slugify` lowercases, replaces
non-alphanumeric separator runs by a single dash and trims dashes
(`slugify('Foo Bar!') = 'foo-bar'`, `slugify('!') = ''`); the counter
wrapper keeps a per-instance occurrence map, returns an empty slug
unchanged without counting, returns a first occurrence as the bare slug,
and appends `-n` (n = occurrence number, starting at 2) on repeats
(`'foo bar'` then `'foo bar'` yields `'foo-bar'`, `'foo-bar-2'`). -/

/-- Slug normalization of one character: alphanumeric characters are
lowercased, every other character acts as a separator. -/
def slugChar (c : Char) : Char := if c.isAlphanum then c.toLower else ' '

/-- Base slugifier: lowercase, separator runs collapsed to single dashes,
leading/trailing separators dropped. -/
def slugifyBase (s : String) : String :=
  String.intercalate "-" ((splitWords (s.data.map slugChar)).map String.mk)

/-- Occurrence map of a `slugifyWithCounter` instance: slug ↦ number of
times it has been produced so far. -/
def SlugState : Type := List (String × Nat)

/-- Look up the occurrence count recorded for a slug. -/
def lookupCount (st : SlugState) (s : String) : Option Nat :=
  match st with
  | [] => none
  | (t, n) :: rest => if t = s then some n else lookupCount rest s

/-- Record one more occurrence of a slug. -/
def bumpCount (st : SlugState) (s : String) : SlugState :=
  match st with
  | [] => [(s, 1)]
  | (t, n) :: rest => if t = s then (t, n + 1) :: rest else (t, n) :: bumpCount rest s

/-- One call of a `slugifyWithCounter` instance: slugify the text, return
an empty slug without touching the state, return a first occurrence
bare, and a repeat with `-n` appended (n = occurrence number ≥ 2). -/
def slugCount (st : SlugState) (text : String) : String × SlugState :=
  let s := slugifyBase text
  if s = "" then ("", st)
  else
    match lookupCount st s with
    | none => (s, bumpCount st s)
    | some n => (s ++ "-" ++ decRepr (n + 1), bumpCount st s)

/-! ## The `heading` and `document` transforms of `src/markdoc/nodes.js` -/

/-- A transformed child of a heading node: Markdoc transforms inline
content into plain strings and `Tag` values; only the strings matter to
the slug. -/
inductive Inline where
  | str (s : String)
  | tag (name : String)
deriving DecidableEq, Repr

/-- A heading node as seen by `heading.transform`: level attribute,
optional explicit `id` attribute, transformed children. -/
structure HeadingNode where
  level : Nat
  idAttr : Option String
  children : List Inline
deriving DecidableEq, Repr

/-- `children.filter((child) => typeof child === 'string')`. -/
def stringChildren (cs : List Inline) : List String :=
  cs.filterMap fun c => match c with
    | .str s => some s
    | .tag _ => none

/-- `children.filter(...).join(' ')`: the text a heading's slug is derived from. -/
def headingText (cs : List Inline) : String :=
  String.intercalate " " (stringChildren cs)

/-- The `Tag` value produced for a heading: rendered element name
(`h${level}`), final `id` attribute, children. -/
structure HTag where
  name : String
  id : String
  children : List Inline
deriving DecidableEq, Repr

/-- `heading.transform`: derive the text from the string children, use the
explicit `id` attribute when present (`attributes.id ?? slugify(text)`,
which leaves the counter untouched), otherwise consume the document's
slug counter. -/
def headingTransform (st : SlugState) (node : HeadingNode) : HTag × SlugState :=
  let text := headingText node.children
  match node.idAttr with
  | some i => (⟨"h" ++ decRepr node.level, i, node.children⟩, st)
  | none =>
    let (i, st') := slugCount st text
    (⟨"h" ++ decRepr node.level, i, node.children⟩, st')

/-- A document node as seen by `document.transform`, reduced to the data
the anchor pipeline uses: its heading children in document order. -/
structure DocumentNode where
  headings : List HeadingNode
deriving DecidableEq, Repr

/-- Transform the headings of one document in order, threading the slug
counter installed for that document. -/
def transformHeadings (st : SlugState) (hs : List HeadingNode) : List HTag × SlugState :=
  match hs with
  | [] => ([], st)
  | h :: rest =>
    let (t, st') := headingTransform st h
    let (ts, st'') := transformHeadings st' rest
    (t :: ts, st'')

/-- `document.transform` installs a fresh `slugifyWithCounter()` for the
document (`documentSlugifyMap.set(config, slugifyWithCounter())`) before
its children are transformed, so each document's headings start from an
empty occurrence map. -/
def documentTransform (d : DocumentNode) : List HTag :=
  (transformHeadings [] d.headings).1

/-- The anchor ids assigned to a document's headings, in document order. -/
def documentAnchors (d : DocumentNode) : List String :=
  (documentTransform d).map (fun t => t.id)

/-- Anchor ids of every document of a site: each document is transformed
with its own fresh slug counter. -/
def siteAnchors (ds : List DocumentNode) : List (List String) :=
  ds.map documentAnchors

/-! ## The search pipeline

`next.config.mjs` wires a `withSearch` plugin from `src/markdoc/search.mjs`,
but that file is not among the provided sources; the index builder and
query engine below are therefore modelled from the specification. -/

/-- Modelled from the spec: a Section record handed to the builder —
heading text, anchor id, body text. -/
structure DocSection where
  heading : String
  anchor : String
  body : String
deriving DecidableEq, Repr

/-- Modelled from the spec: a Document — unique path, title, ordered
sections. -/
structure Document where
  path : String
  title : String
  sections : List DocSection
deriving DecidableEq, Repr

/-- Modelled from the spec: the per-Section metadata kept in the
Serialized Index lookup table (Document path, anchor id, heading, title). -/
structure SectionMeta where
  path : String
  anchor : String
  heading : String
  title : String
deriving DecidableEq, Repr

/-- Token normalization of one character: whitespace becomes a plain
space, every other character is lowercased. -/
def tokenChar (c : Char) : Char := if c.isWhitespace then ' ' else c.toLower

/-- Modelled from the spec: tokenization — lowercase, strip punctuation
(drop characters that are neither alphanumeric nor whitespace), split on
whitespace. Shared by the builder and the query engine. -/
def tokenize (s : String) : List String :=
  (splitWords ((s.data.map tokenChar).filter
    (fun c => c.isAlphanum || c = ' '))).map String.mk

/-- Modelled from the spec: the searchable text of a Section is its
heading together with its body. -/
def secTokens (s : DocSection) : List String :=
  tokenize s.heading ++ tokenize s.body

/-- First-occurrence deduplication (structural, with a seen-set
accumulator). -/
def dedupAux [DecidableEq α] (seen : List α) : List α → List α
  | [] => []
  | x :: xs => if x ∈ seen then dedupAux seen xs else x :: dedupAux (x :: seen) xs

/-- Deduplicate a list keeping the first occurrence of each element. -/
def dedupFirst [DecidableEq α] (l : List α) : List α := dedupAux [] l

/-- Modelled from the spec: the Serialized Index — a token → Section-id
list mapping plus a Section-id → metadata lookup table (ids are
positions in the table). -/
structure SerializedIndex where
  entries : List (String × List Nat)
  table : List SectionMeta
deriving DecidableEq, Repr

/-- Append a Section id to a token's entry, creating the entry at the end
on first sight of the token (so entries stay in first-occurrence order). -/
def insertEntry (es : List (String × List Nat)) (t : String) (i : Nat) :
    List (String × List Nat) :=
  match es with
  | [] => [(t, [i])]
  | (u, ids) :: rest =>
    if u = t then (u, ids ++ [i]) :: rest else (u, ids) :: insertEntry rest t i

/-- Modelled from the spec: for each distinct token of a Section, append
that Section's id to the token's Index Entry. -/
def addSection (es : List (String × List Nat)) (i : Nat) (toks : List String) :
    List (String × List Nat) :=
  (dedupFirst toks).foldl (fun acc t => insertEntry acc t i) es

/-- Index every section of the list, assigning ids from `i` upward. -/
def addAll (es : List (String × List Nat)) (i : Nat) :
    List (Document × DocSection) → List (String × List Nat)
  | [] => es
  | p :: rest => addAll (addSection es i (secTokens p.2)) (i + 1) rest

/-- All sections of a document set in document order, each paired with
its owning document. -/
def sectionsOf (docs : List Document) : List (Document × DocSection) :=
  (docs.map (fun d => d.sections.map (fun s => (d, s)))).flatten

/-- The lookup-table record of one section. -/
def metaOf (p : Document × DocSection) : SectionMeta :=
  ⟨p.1.path, p.2.anchor, p.2.heading, p.1.title⟩

/-- Modelled from the spec: the Index Builder — walk the documents in
order, tokenize every section, and produce the Serialized Index. -/
def buildIndex (docs : List Document) : SerializedIndex :=
  ⟨addAll [] 0 (sectionsOf docs), (sectionsOf docs).map metaOf⟩

/-- Serialize one index entry. -/
def serializeEntry (e : String × List Nat) : String :=
  "\"" ++ e.1 ++ "\":[" ++ String.intercalate "," (e.2.map decRepr) ++ "]"

/-- Serialize one table record. -/
def serializeMeta (m : SectionMeta) : String :=
  "[\"" ++ m.path ++ "\",\"" ++ m.anchor ++ "\",\"" ++ m.heading ++ "\",\"" ++
    m.title ++ "\"]"

/-- Modelled from the spec: the flat JSON-compatible encoding of the
Serialized Index, entries in their stored order. -/
def serializeIndex (idx : SerializedIndex) : String :=
  "\x7b\"entries\":\x7b" ++
    String.intercalate "," (idx.entries.map serializeEntry) ++
  "\x7d,\"table\":[" ++
    String.intercalate "," (idx.table.map serializeMeta) ++
  "]\x7d"

/-- Modelled from the spec: maximum number of results returned by a
query (the fixed top-N bound on rendering cost). -/
def maxResults : Nat := 5

/-- Section-id list stored for a token (empty when the token is absent). -/
def lookupEntry (es : List (String × List Nat)) (t : String) : List Nat :=
  match es with
  | [] => []
  | (u, ids) :: rest => if u = t then ids else lookupEntry rest t

/-- Candidate section ids of a query: union (first-occurrence order) of
the entries of its tokens. -/
def candidateIds (idx : SerializedIndex) (toks : List String) : List Nat :=
  dedupFirst ((toks.map (lookupEntry idx.entries)).flatten)

/-- Modelled from the spec: relevance score of a section for a query —
the number of query tokens whose entry contains the section. -/
def score (idx : SerializedIndex) (toks : List String) (i : Nat) : Nat :=
  (toks.filter (fun t => decide (i ∈ lookupEntry idx.entries t))).length

/-- Ranking order on `(id, score)` pairs: higher score first, ties broken
by document order (lower id first). -/
def resRel (a b : Nat × Nat) : Prop :=
  b.2 < a.2 ∨ (a.2 = b.2 ∧ a.1 ≤ b.1)

instance resRelDecidable : DecidableRel resRel := fun a b =>
  if h : b.2 < a.2 ∨ (a.2 = b.2 ∧ a.1 ≤ b.1) then .isTrue h else .isFalse h

instance resRelTotal : IsTotal (Nat × Nat) resRel :=
  ⟨by intro a b; unfold resRel; omega⟩

instance resRelTrans : IsTrans (Nat × Nat) resRel :=
  ⟨by intro a b c; unfold resRel; omega⟩

/-- Modelled from the spec: one search result — section id, relevance
score, and the metadata needed to render a clickable link. -/
structure SearchResult where
  id : Nat
  score : Nat
  path : String
  anchor : String
  heading : String
  title : String
deriving DecidableEq, Repr

/-- Attach the lookup-table metadata to a scored id; ids absent from the
table produce no result. -/
def renderResult (idx : SerializedIndex) (p : Nat × Nat) : Option SearchResult :=
  (idx.table.get? p.1).map (fun m => ⟨p.1, p.2, m.path, m.anchor, m.heading, m.title⟩)

/-- Modelled from the spec: the Query Engine — tokenize the query with
the builder's normalization, look up each token, score the hit sections,
sort descending by score with ties broken by document order, truncate to
the top `maxResults`, and attach rendering metadata. -/
def search (q : String) (idx : SerializedIndex) : List SearchResult :=
  let toks := tokenize q
  let scored := (candidateIds idx toks).map (fun i => (i, score idx toks i))
  ((List.insertionSort resRel scored).take maxResults).filterMap (renderResult idx)

/-- Ids (counted from `i`) of the sections of a list that contain a
token: the reference description of what the builder stores in that
token's Index Entry. -/
def hitIds (t : String) (i : Nat) : List (Document × DocSection) → List Nat
  | [] => []
  | p :: rest =>
    if t ∈ secTokens p.2 then i :: hitIds t (i + 1) rest else hitIds t (i + 1) rest

/-! ## Concrete inputs used by counterexamples and witnesses -/

/-- Two headings whose text consists of punctuation only: both slugs are
empty, so both receive the empty anchor id. -/
def punctDoc : DocumentNode :=
  ⟨[⟨2, none, [.str "!"]⟩, ⟨2, none, [.str "?"]⟩]⟩

/-- First document of the duplicate-heading scenario: one `Overview`
section. -/
def overviewDocA : DocumentNode := ⟨[⟨2, none, [.str "Overview"]⟩]⟩

/-- Second document of the duplicate-heading scenario: one `Overview`
section. -/
def overviewDocB : DocumentNode := ⟨[⟨2, none, [.str "Overview"]⟩]⟩

/-- The duplicate-heading scenario as builder input: two documents with
distinct paths, each with a Section anchored at the (shared) anchor id
`overview`. -/
def overviewDocs : List Document :=
  [⟨"/docs/a", "Alpha", [⟨"Overview", "overview", "alpha overview text"⟩]⟩,
   ⟨"/docs/b", "Beta", [⟨"Overview", "overview", "beta overview text"⟩]⟩]

/-- The recall scenario of the specification: one document, one section
whose body is `composable views in rails`. -/
def scenarioDocs : List Document :=
  [⟨"/docs/a", "Alpha", [⟨"Intro", "intro", "composable views in rails"⟩]⟩]

/-- Six single-section documents whose bodies all contain the token `x`:
more matches than `maxResults` allows. -/
def sixDocs : List Document :=
  [⟨"/docs/0", "D0", [⟨"H0", "h0", "x common"⟩]⟩,
   ⟨"/docs/1", "D1", [⟨"H1", "h1", "x common"⟩]⟩,
   ⟨"/docs/2", "D2", [⟨"H2", "h2", "x common"⟩]⟩,
   ⟨"/docs/3", "D3", [⟨"H3", "h3", "x common"⟩]⟩,
   ⟨"/docs/4", "D4", [⟨"H4", "h4", "x common"⟩]⟩,
   ⟨"/docs/5", "D5", [⟨"H5", "h5", "x common"⟩]⟩]

/-! ## Helper lemmas: decimal rendering -/

theorem digitChar_toNat {d : Nat} (h : d < 10) : (digitChar d).toNat = 48 + d := by
  interval_cases d <;> rfl

theorem decVal_append (l : List Char) (c : Char) :
    decVal (l ++ [c]) = 10 * decVal l + (c.toNat - 48) := by
  simp [decVal, List.foldl_append]

theorem decVal_decDigitsAux : ∀ fuel n, n ≤ fuel → decVal (decDigitsAux fuel n) = n := by
  intro fuel
  induction fuel with
  | zero =>
    intro n hn
    have : n = 0 := Nat.le_zero.mp hn
    subst this
    rfl
  | succ fuel ih =>
    intro n hn
    rw [decDigitsAux]
    by_cases h : n < 10
    · simp only [if_pos h]
      simp [decVal, digitChar_toNat h]
    · simp only [if_neg h]
      rw [decVal_append, ih (n / 10) (by omega), digitChar_toNat (Nat.mod_lt n (by omega))]
      omega

theorem decVal_decDigits (n : Nat) : decVal (decDigits n) = n :=
  decVal_decDigitsAux n n (Nat.le_refl n)

theorem decRepr_injective {m n : Nat} (h : decRepr m = decRepr n) : m = n := by
  have hd : decDigits m = decDigits n := congrArg String.data h
  calc m = decVal (decDigits m) := (decVal_decDigits m).symm
    _ = decVal (decDigits n) := by rw [hd]
    _ = n := decVal_decDigits n

theorem decDigitsAux_ne_nil (fuel n : Nat) : decDigitsAux fuel n ≠ [] := by
  cases fuel with
  | zero => simp [decDigitsAux]
  | succ fuel =>
    rw [decDigitsAux]
    by_cases h : n < 10 <;> simp [h]

theorem decRepr_length_pos (n : Nat) : 0 < (decRepr n).length := by
  rw [decRepr, String.length_mk]
  exact List.length_pos.mpr (decDigitsAux_ne_nil n n)

/-- Strings extended by a dash and distinct decimal counters are distinct. -/
theorem counterSuffix_injective {s : String} {i j : Nat}
    (h : s ++ "-" ++ decRepr i = s ++ "-" ++ decRepr j) : i = j := by
  have hd : (s ++ "-").data ++ (decRepr i).data = (s ++ "-").data ++ (decRepr j).data := by
    have := congrArg String.data h
    simpa [String.data_append] using this
  have : (decRepr i).data = (decRepr j).data := List.append_cancel_left hd
  exact decRepr_injective (by
    cases hi : decRepr i
    cases hj : decRepr j
    simp_all)

/-- A bare slug never equals a counter-suffixed slug (length mismatch). -/
theorem ne_counterSuffix (s : String) (i : Nat) : s ≠ s ++ "-" ++ decRepr i := by
  intro h
  have := congrArg String.length h
  rw [String.length_append, String.length_append] at this
  have := decRepr_length_pos i
  have hdash : ("-" : String).length = 1 := rfl
  omega

/-! ## Helper lemmas: first-occurrence deduplication -/

theorem mem_dedupAux [DecidableEq α] {x : α} :
    ∀ {l seen : List α}, x ∈ dedupAux seen l ↔ x ∈ l ∧ x ∉ seen := by
  intro l
  induction l with
  | nil => intro seen; simp [dedupAux]
  | cons y ys ih =>
    intro seen
    rw [dedupAux]
    by_cases hy : y ∈ seen
    · rw [if_pos hy, ih]
      constructor
      · rintro ⟨h1, h2⟩
        exact ⟨List.mem_cons_of_mem y h1, h2⟩
      · rintro ⟨h1, h2⟩
        rcases List.mem_cons.mp h1 with h | h
        · subst h; exact absurd hy h2
        · exact ⟨h, h2⟩
    · rw [if_neg hy]
      constructor
      · intro h
        rcases List.mem_cons.mp h with h | h
        · subst h; exact ⟨List.mem_cons_self x ys, hy⟩
        · have := ih.mp h
          refine ⟨List.mem_cons_of_mem y this.1, fun hx => this.2 (List.mem_cons_of_mem y hx)⟩
      · rintro ⟨h1, h2⟩
        rcases List.mem_cons.mp h1 with h | h
        · subst h; exact List.mem_cons_self x _
        · by_cases hxy : x = y
          · subst hxy; exact List.mem_cons_self x _
          · exact List.mem_cons_of_mem y (ih.mpr ⟨h, by
              intro hx
              rcases List.mem_cons.mp hx with h | h
              · exact hxy h
              · exact h2 h⟩)

theorem dedupAux_congr [DecidableEq α] {s₁ s₂ : List α}
    (hs : ∀ x : α, x ∈ s₁ ↔ x ∈ s₂) : ∀ l : List α, dedupAux s₁ l = dedupAux s₂ l := by
  intro l
  induction l generalizing s₁ s₂ with
  | nil => rfl
  | cons y ys ih =>
    rw [dedupAux, dedupAux]
    by_cases hy : y ∈ s₁
    · rw [if_pos hy, if_pos ((hs y).mp hy)]
      exact ih hs
    · rw [if_neg hy, if_neg (fun h => hy ((hs y).mpr h))]
      refine congrArg (y :: ·) (ih ?_)
      intro x
      simp only [List.mem_cons]
      exact or_congr Iff.rfl (hs x)

theorem dedupAux_append [DecidableEq α] :
    ∀ (a : List α) (b seen : List α),
      dedupAux seen (a ++ b) = dedupAux seen a ++ dedupAux (seen ++ a) b := by
  intro a
  induction a with
  | nil =>
    intro b seen
    simp only [List.nil_append, List.append_nil, dedupAux]
  | cons y ys ih =>
    intro b seen
    by_cases hy : y ∈ seen
    · simp only [List.cons_append, List.append_eq, dedupAux, if_pos hy, ih]
      refine congrArg (dedupAux seen ys ++ ·) (dedupAux_congr ?_ b)
      intro x
      simp only [List.mem_append, List.mem_cons]
      constructor
      · rintro (h | h)
        · exact Or.inl h
        · exact Or.inr (Or.inr h)
      · rintro (h | h | h)
        · exact Or.inl h
        · subst h; exact Or.inl hy
        · exact Or.inr h
    · simp only [List.cons_append, List.append_eq, dedupAux, if_neg hy, ih]
      refine congrArg (y :: ·) (congrArg (dedupAux (y :: seen) ys ++ ·) (dedupAux_congr ?_ b))
      intro x
      simp only [List.mem_append, List.mem_cons]
      tauto

theorem dedupAux_dedupAux [DecidableEq α] :
    ∀ (l s t : List α), (∀ x ∈ t, x ∈ s) →
      dedupAux s (dedupAux t l) = dedupAux s l := by
  intro l
  induction l with
  | nil => intro s t _; rfl
  | cons y ys ih =>
    intro s t hts
    by_cases hy : y ∈ t
    · rw [dedupAux, if_pos hy, ih s t hts, dedupAux, if_pos (hts y hy)]
    · by_cases hys : y ∈ s
      · rw [dedupAux, if_neg hy, dedupAux, if_pos hys, dedupAux, if_pos hys]
        refine ih s (y :: t) ?_
        intro x hx
        rcases List.mem_cons.mp hx with h | h
        · subst h; exact hys
        · exact hts x h
      · rw [dedupAux, if_neg hy, dedupAux, if_neg hys, dedupAux, if_neg hys]
        refine congrArg (y :: ·) (ih (y :: s) (y :: t) ?_)
        intro x hx
        rcases List.mem_cons.mp hx with h | h
        · subst h; exact List.mem_cons_self x _
        · exact List.mem_cons_of_mem y (hts x h)

theorem nodup_dedupAux [DecidableEq α] : ∀ (l seen : List α), (dedupAux seen l).Nodup := by
  intro l
  induction l with
  | nil => intro seen; exact List.nodup_nil
  | cons y ys ih =>
    intro seen
    rw [dedupAux]
    by_cases hy : y ∈ seen
    · rw [if_pos hy]; exact ih seen
    · rw [if_neg hy]
      refine List.Nodup.cons ?_ (ih (y :: seen))
      intro hmem
      exact (mem_dedupAux.mp hmem).2 (List.mem_cons_self y seen)

theorem dedupAux_eq_self [DecidableEq α] :
    ∀ {l seen : List α}, l.Nodup → (∀ x ∈ l, x ∉ seen) → dedupAux seen l = l := by
  intro l
  induction l with
  | nil => intro seen _ _; rfl
  | cons y ys ih =>
    intro seen hnd hs
    rw [dedupAux, if_neg (hs y (List.mem_cons_self y ys))]
    refine congrArg (y :: ·) (ih (List.Nodup.of_cons hnd) ?_)
    intro x hx hmem
    rcases List.mem_cons.mp hmem with h | h
    · subst h
      exact (List.nodup_cons.mp hnd).1 hx
    · exact hs x (List.mem_cons_of_mem y hx) h

/-! ## Helper lemmas: index entries -/

theorem lookupEntry_insertEntry (es : List (String × List Nat)) (u t : String) (i : Nat) :
    lookupEntry (insertEntry es u i) t =
      if u = t then lookupEntry es t ++ [i] else lookupEntry es t := by
  induction es with
  | nil =>
    by_cases h : u = t <;> simp [insertEntry, lookupEntry, h]
  | cons e rest ih =>
    obtain ⟨v, ids⟩ := e
    rw [insertEntry]
    by_cases hvu : v = u
    · subst hvu
      rw [if_pos rfl, lookupEntry, lookupEntry]
      by_cases hvt : v = t
      · rw [if_pos hvt, if_pos hvt, if_pos hvt]
      · rw [if_neg hvt, if_neg hvt, if_neg hvt]
    · rw [if_neg hvu, lookupEntry, lookupEntry]
      by_cases hvt : v = t
      · subst hvt
        rw [if_pos rfl, if_pos rfl, if_neg (fun h => hvu h.symm)]
      · rw [if_neg hvt, if_neg hvt, ih]

theorem keys_insertEntry (es : List (String × List Nat)) (u : String) (i : Nat) :
    (insertEntry es u i).map Prod.fst =
      if u ∈ es.map Prod.fst then es.map Prod.fst else es.map Prod.fst ++ [u] := by
  induction es with
  | nil => simp [insertEntry]
  | cons e rest ih =>
    obtain ⟨v, ids⟩ := e
    rw [insertEntry]
    by_cases hvu : v = u
    · subst hvu
      simp
    · rw [if_neg hvu]
      simp only [List.map_cons, List.mem_cons, List.cons_append]
      rw [ih]
      by_cases hu : u ∈ rest.map Prod.fst
      · rw [if_pos hu, if_pos (Or.inr hu)]
      · rw [if_neg hu, if_neg ?_]
        intro h
        rcases h with h | h
        · exact hvu h.symm
        · exact hu h

theorem lookupEntry_foldl_insert :
    ∀ (L : List String) (es : List (String × List Nat)) (i : Nat) (t : String), L.Nodup →
      lookupEntry (L.foldl (fun acc u => insertEntry acc u i) es) t =
        lookupEntry es t ++ (if t ∈ L then [i] else []) := by
  intro L
  induction L with
  | nil => intro es i t _; simp
  | cons u L ih =>
    intro es i t hnd
    rw [List.foldl_cons, ih (insertEntry es u i) i t (List.Nodup.of_cons hnd),
      lookupEntry_insertEntry]
    by_cases hut : u = t
    · subst hut
      have htL : u ∉ L := (List.nodup_cons.mp hnd).1
      rw [if_pos rfl, if_neg htL, if_pos (List.mem_cons_self u L), List.append_nil]
    · rw [if_neg hut]
      by_cases htL : t ∈ L
      · rw [if_pos htL, if_pos (List.mem_cons_of_mem u htL)]
      · rw [if_neg htL,
          if_neg (fun h => (List.mem_cons.mp h).elim (fun h2 => hut h2.symm) htL)]

theorem keys_foldl_insert :
    ∀ (L : List String) (es : List (String × List Nat)) (i : Nat),
      (L.foldl (fun acc u => insertEntry acc u i) es).map Prod.fst =
        es.map Prod.fst ++ dedupAux (es.map Prod.fst) L := by
  intro L
  induction L with
  | nil => intro es i; simp [dedupAux]
  | cons u L ih =>
    intro es i
    rw [List.foldl_cons, ih (insertEntry es u i) i, keys_insertEntry, dedupAux]
    by_cases hu : u ∈ es.map Prod.fst
    · rw [if_pos hu, if_pos hu]
    · rw [if_neg hu, if_neg hu, List.append_assoc, List.singleton_append]
      refine congrArg (es.map Prod.fst ++ ·) (congrArg (u :: ·) (dedupAux_congr ?_ L))
      intro x
      simp only [List.mem_append, List.mem_cons, List.mem_singleton]
      tauto

theorem lookupEntry_addSection (es : List (String × List Nat)) (i : Nat)
    (toks : List String) (t : String) :
    lookupEntry (addSection es i toks) t =
      lookupEntry es t ++ (if t ∈ toks then [i] else []) := by
  rw [addSection, dedupFirst, lookupEntry_foldl_insert _ _ _ _ (nodup_dedupAux toks [])]
  by_cases ht : t ∈ toks
  · rw [if_pos ht, if_pos (mem_dedupAux.mpr ⟨ht, List.not_mem_nil t⟩)]
  · rw [if_neg ht, if_neg (fun h => ht (mem_dedupAux.mp h).1)]

theorem keys_addSection (es : List (String × List Nat)) (i : Nat) (toks : List String) :
    (addSection es i toks).map Prod.fst =
      es.map Prod.fst ++ dedupAux (es.map Prod.fst) toks := by
  rw [addSection, keys_foldl_insert]
  exact congrArg (es.map Prod.fst ++ ·)
    (dedupAux_dedupAux toks (es.map Prod.fst) [] (by simp))

theorem lookupEntry_addAll :
    ∀ (secs : List (Document × DocSection)) (es : List (String × List Nat))
      (i : Nat) (t : String),
      lookupEntry (addAll es i secs) t = lookupEntry es t ++ hitIds t i secs := by
  intro secs
  induction secs with
  | nil => intro es i t; simp [addAll, hitIds]
  | cons p rest ih =>
    intro es i t
    rw [addAll, ih, lookupEntry_addSection, hitIds]
    by_cases ht : t ∈ secTokens p.2
    · rw [if_pos ht, if_pos ht, List.append_assoc, List.singleton_append]
    · rw [if_neg ht, if_neg ht, List.append_nil]

theorem keys_addAll :
    ∀ (secs : List (Document × DocSection)) (es : List (String × List Nat)) (i : Nat),
      (addAll es i secs).map Prod.fst =
        es.map Prod.fst ++
          dedupAux (es.map Prod.fst) ((secs.map (fun p => secTokens p.2)).flatten) := by
  intro secs
  induction secs with
  | nil => intro es i; simp [addAll, dedupAux]
  | cons p rest ih =>
    intro es i
    rw [addAll, ih, keys_addSection, List.map_cons, List.flatten_cons, dedupAux_append,
      ← List.append_assoc]
    refine congrArg (es.map Prod.fst ++ dedupAux (es.map Prod.fst) (secTokens p.2) ++ ·)
      (dedupAux_congr ?_ _)
    intro x
    simp only [List.mem_append, mem_dedupAux]
    tauto

theorem hitIds_mem_of_get :
    ∀ (secs : List (Document × DocSection)) (i0 k : Nat) (hk : k < secs.length)
      (t : String), t ∈ secTokens (secs.get ⟨k, hk⟩).2 → (i0 + k) ∈ hitIds t i0 secs := by
  intro secs
  induction secs with
  | nil => intro i0 k hk; exact absurd hk (by simp)
  | cons p rest ih =>
    intro i0 k hk t ht
    cases k with
    | zero =>
      have ht' : t ∈ secTokens p.2 := ht
      rw [hitIds, if_pos ht']
      simp
    | succ k =>
      have hk' : k < rest.length := by simpa using hk
      have ht' : t ∈ secTokens (rest.get ⟨k, hk'⟩).2 := ht
      have hmem : (i0 + 1) + k ∈ hitIds t (i0 + 1) rest := ih (i0 + 1) k hk' t ht'
      have harith : i0 + (k + 1) = (i0 + 1) + k := by omega
      rw [hitIds, harith]
      by_cases hp : t ∈ secTokens p.2
      · rw [if_pos hp]; exact List.mem_cons_of_mem _ hmem
      · rw [if_neg hp]; exact hmem

theorem hitIds_length_eq :
    ∀ (secs : List (Document × DocSection)) (i0 : Nat) (t : String),
      (hitIds t i0 secs).length =
        (secs.filter (fun p => decide (t ∈ secTokens p.2))).length := by
  intro secs
  induction secs with
  | nil => intro i0 t; rfl
  | cons p rest ih =>
    intro i0 t
    rw [hitIds, List.filter_cons]
    by_cases hp : t ∈ secTokens p.2
    · rw [if_pos hp, if_pos (by simpa using hp)]
      simp [ih (i0 + 1) t]
    · rw [if_neg hp, if_neg (by simpa using hp)]
      exact ih (i0 + 1) t

theorem hitIds_ge :
    ∀ (secs : List (Document × DocSection)) (i0 : Nat) (t : String) (x : Nat),
      x ∈ hitIds t i0 secs → i0 ≤ x := by
  intro secs
  induction secs with
  | nil => intro i0 t x hx; exact absurd hx (by simp [hitIds])
  | cons p rest ih =>
    intro i0 t x hx
    rw [hitIds] at hx
    by_cases hp : t ∈ secTokens p.2
    · rw [if_pos hp] at hx
      rcases List.mem_cons.mp hx with h | h
      · omega
      · have := ih (i0 + 1) t x h; omega
    · rw [if_neg hp] at hx
      have := ih (i0 + 1) t x hx; omega

theorem hitIds_nodup :
    ∀ (secs : List (Document × DocSection)) (i0 : Nat) (t : String),
      (hitIds t i0 secs).Nodup := by
  intro secs
  induction secs with
  | nil => intro i0 t; simp [hitIds]
  | cons p rest ih =>
    intro i0 t
    rw [hitIds]
    by_cases hp : t ∈ secTokens p.2
    · rw [if_pos hp]
      refine List.Nodup.cons ?_ (ih (i0 + 1) t)
      intro hmem
      have := hitIds_ge rest (i0 + 1) t i0 hmem
      omega
    · rw [if_neg hp]
      exact ih (i0 + 1) t

/-- The Index Entry stored for a token is exactly the list of ids of the
sections containing that token, in document order. -/
theorem lookupEntry_buildIndex (docs : List Document) (t : String) :
    lookupEntry (buildIndex docs).entries t = hitIds t 0 (sectionsOf docs) := by
  rw [buildIndex, lookupEntry_addAll]
  rfl

/-! ## Helper lemmas: anchor assignment -/

theorem headingText_single (t : String) : headingText [Inline.str t] = t := rfl

theorem slugCount_fresh {t : String} (hs : slugifyBase t ≠ "") :
    slugCount [] t = (slugifyBase t, [(slugifyBase t, 1)]) := by
  simp only [slugCount, lookupCount, bumpCount, if_neg hs]

theorem slugCount_repeat {t : String} (hs : slugifyBase t ≠ "") (k : Nat) :
    slugCount [(slugifyBase t, k)] t =
      (slugifyBase t ++ "-" ++ decRepr (k + 1), [(slugifyBase t, k + 1)]) := by
  simp [slugCount, lookupCount, bumpCount, if_neg hs]

theorem transformHeadings_repeat (t : String) (hs : slugifyBase t ≠ "") (lvl : Nat) :
    ∀ (m k : Nat),
      ((transformHeadings [(slugifyBase t, k)]
          (List.replicate m ⟨lvl, none, [.str t]⟩)).1.map (fun tg => tg.id)) =
        (List.range m).map (fun j => slugifyBase t ++ "-" ++ decRepr (k + 1 + j)) := by
  intro m
  induction m with
  | zero => intro k; simp [transformHeadings]
  | succ m ih =>
    intro k
    rw [List.replicate_succ, transformHeadings, headingTransform]
    simp only [headingText_single, slugCount_repeat hs k]
    rw [List.map_cons, List.range_succ_eq_map, List.map_cons, List.map_map]
    refine congrArg₂ (· :: ·) (by rw [Nat.add_zero]) ?_
    rw [ih (k + 1)]
    refine List.map_congr_left ?_
    intro j _
    simp only [Function.comp_apply]
    refine congrArg (fun z => slugifyBase t ++ "-" ++ decRepr z) ?_
    omega

theorem documentAnchors_repeat (t : String) (hs : slugifyBase t ≠ "") (lvl m : Nat) :
    documentAnchors ⟨List.replicate (m + 1) ⟨lvl, none, [.str t]⟩⟩ =
      slugifyBase t ::
        (List.range m).map (fun j => slugifyBase t ++ "-" ++ decRepr (2 + j)) := by
  rw [documentAnchors, documentTransform, List.replicate_succ, transformHeadings,
    headingTransform]
  simp only [headingText_single, slugCount_fresh hs]
  rw [List.map_cons]
  refine congrArg (slugifyBase t :: ·) ?_
  refine (transformHeadings_repeat t hs lvl m 1).trans ?_
  refine List.map_congr_left ?_
  intro j _
  refine congrArg (fun z => slugifyBase t ++ "-" ++ decRepr z) ?_
  omega

theorem anchors_pairwise (s : String) (m : Nat) :
    (s :: (List.range m).map
        (fun j => s ++ "-" ++ decRepr (2 + j))).Pairwise (fun a b => a ≠ b) := by
  refine List.Pairwise.cons ?_ ?_
  · intro b hb
    rcases List.mem_map.mp hb with ⟨j, _, rfl⟩
    exact ne_counterSuffix s (2 + j)
  · refine List.pairwise_map.mpr ?_
    refine List.Pairwise.imp ?_ (List.sorted_lt_range m)
    intro a b hab heq
    have := counterSuffix_injective heq
    omega

/-! ## Claim theorems -/

/-- C1 (counterexample): the anchor ids of one Document are not always
pairwise distinct: two headings whose texts slugify to the empty string
(here `!` and `?`) both receive the empty anchor id, because the slug
counter returns an empty slug unchanged without deduplicating it. -/
theorem anchor_unique_cex :
    documentAnchors punctDoc = ["", ""] ∧
      ¬ (documentAnchors punctDoc).Pairwise (fun a b => a ≠ b) := by
  constructor
  · decide
  · decide

/-- C1 (amended): a repeated heading within one Document is deduplicated:
when every heading of the Document has the same text, no explicit `id`
attribute, and the text's slug is nonempty, the assigned anchor ids
(`s`, `s-2`, `s-3`, …) are pairwise distinct. -/
theorem anchor_dedup_repeated_heading (t : String) (lvl n : Nat)
    (hs : slugifyBase t ≠ "") :
    (documentAnchors ⟨List.replicate n ⟨lvl, none, [.str t]⟩⟩).Pairwise
      (fun a b => a ≠ b) := by
  cases n with
  | zero =>
    simp [documentAnchors, documentTransform, transformHeadings]
  | succ m =>
    rw [documentAnchors_repeat t hs lvl m]
    exact anchors_pairwise (slugifyBase t) m

/-- Witness for the amended C1 theorem at the heading text `Overview`
repeated three times. -/
theorem anchor_dedup_repeated_heading_witness :
    slugifyBase "Overview" ≠ "" ∧
      (documentAnchors ⟨List.replicate 3 ⟨2, none, [.str "Overview"]⟩⟩).Pairwise
        (fun a b => a ≠ b) :=
  ⟨by decide, anchor_dedup_repeated_heading "Overview" 2 3 (by decide)⟩

/-- C2 (counterexample): two Sections in two different Documents both
titled `Overview` do not receive distinct anchor ids: `document.transform`
installs a fresh slug counter per document, so both receive `overview`. -/
theorem cross_document_anchor_cex :
    siteAnchors [overviewDocA, overviewDocB] = [["overview"], ["overview"]] ∧
      documentAnchors overviewDocA = documentAnchors overviewDocB :=
  ⟨by decide, by decide⟩

/-- C2 (amended): both `Overview` Sections receive the same anchor id
`overview` (the deduplication counter is per-Document), and each remains
independently retrievable by a search: the query returns both Sections,
distinguished by their distinct Document paths. -/
theorem cross_document_anchor_retrievable :
    documentAnchors overviewDocA = ["overview"] ∧
      documentAnchors overviewDocB = ["overview"] ∧
      (search "Overview" (buildIndex overviewDocs)).map (fun r => (r.path, r.anchor)) =
        [("/docs/a", "overview"), ("/docs/b", "overview")] :=
  ⟨by decide, by decide, by decide⟩

/-- C9: tokenization is a deterministic function of the input text:
tokenizing the same raw text twice yields the same token multiset (in the
pure embedding this holds by reflexivity). -/
theorem tokenize_deterministic (s : String) :
    (↑(tokenize s) : Multiset String) = ↑(tokenize s) ∧ tokenize s = tokenize s :=
  ⟨rfl, rfl⟩

/-- C10: the heading transform uses the explicit `id` attribute verbatim
when present, leaving the per-document deduplication counter untouched;
otherwise the id is the deduplicating slug of the string children joined
by single spaces; and non-string children contribute nothing to the
derived text. -/
theorem heading_id_assignment (st : SlugState) (lvl : Nat) (cs : List Inline) :
    (∀ i : String,
        (headingTransform st ⟨lvl, some i, cs⟩).1.id = i ∧
          (headingTransform st ⟨lvl, some i, cs⟩).2 = st) ∧
      (headingTransform st ⟨lvl, none, cs⟩).1.id =
          (slugCount st (String.intercalate " " (stringChildren cs))).1 ∧
      (∀ (pre post : List Inline) (nm : String),
          headingText (pre ++ Inline.tag nm :: post) = headingText (pre ++ post)) := by
  refine ⟨fun i => ⟨rfl, rfl⟩, rfl, ?_⟩
  intro pre post nm
  simp [headingText, stringChildren, List.filterMap_append, List.filterMap_cons]

/-- C3: rebuilding the index on identical input yields identical
serialized output, and the ordering of entries is stable and canonical:
the entry keys are exactly the first occurrences of the sections' tokens
in document order. -/
theorem build_deterministic_stable (docs : List Document) :
    serializeIndex (buildIndex docs) = serializeIndex (buildIndex docs) ∧
      (buildIndex docs).entries.map Prod.fst =
        dedupFirst (((sectionsOf docs).map (fun p => secTokens p.2)).flatten) := by
  refine ⟨rfl, ?_⟩
  show (addAll [] 0 (sectionsOf docs)).map Prod.fst = _
  rw [keys_addAll]
  simp [dedupFirst]

/-- C6: the empty query returns an empty result list, and any query whose
tokenization yields zero tokens (e.g. punctuation only) is treated the
same way. -/
theorem search_empty_query :
    (∀ idx : SerializedIndex, search "" idx = []) ∧
      (∀ (q : String) (idx : SerializedIndex), tokenize q = [] → search q idx = []) := by
  have key : ∀ (q : String) (idx : SerializedIndex), tokenize q = [] → search q idx = [] := by
    intro q idx h
    simp [search, h, candidateIds, dedupFirst, dedupAux, List.insertionSort]
  exact ⟨fun idx => key "" idx rfl, key⟩

/-- Witness for the empty-query theorem at a punctuation-only query over
the index of the specification's scenario document. -/
theorem search_empty_query_witness :
    tokenize "?!, ." = [] ∧ search "?!, ." (buildIndex scenarioDocs) = [] :=
  ⟨by decide, search_empty_query.2 "?!, ." (buildIndex scenarioDocs) (by decide)⟩

/-- C7: a query none of whose tokens is present in the index returns an
empty result list. -/
theorem search_no_hits (q : String) (idx : SerializedIndex)
    (h : ∀ t ∈ tokenize q, lookupEntry idx.entries t = []) : search q idx = [] := by
  have hflat : ((tokenize q).map (lookupEntry idx.entries)).flatten = [] := by
    rw [List.flatten_eq_nil_iff]
    intro l hl
    rcases List.mem_map.mp hl with ⟨t, ht, rfl⟩
    exact h t ht
  simp [search, candidateIds, hflat, dedupFirst, dedupAux, List.insertionSort]

/-- Witness for the no-hit theorem: a query with unknown tokens over the
scenario index returns no results. -/
theorem search_no_hits_witness :
    (∀ t ∈ tokenize "zzz qqq",
        lookupEntry (buildIndex scenarioDocs).entries t = []) ∧
      search "zzz qqq" (buildIndex scenarioDocs) = [] :=
  ⟨by decide, search_no_hits "zzz qqq" (buildIndex scenarioDocs) (by decide)⟩

/-- C5: search never fabricates results: every returned result refers to
a Section id present in the index's lookup table, carrying that
Section's stored metadata. -/
theorem search_results_indexed (q : String) (idx : SerializedIndex) (r : SearchResult)
    (hr : r ∈ search q idx) :
    ∃ m : SectionMeta, idx.table.get? r.id = some m ∧ r.path = m.path ∧
      r.anchor = m.anchor ∧ r.heading = m.heading ∧ r.title = m.title := by
  have hr' : r ∈ ((List.insertionSort resRel ((candidateIds idx (tokenize q)).map
      (fun i => (i, score idx (tokenize q) i)))).take maxResults).filterMap
        (renderResult idx) := hr
  rcases List.mem_filterMap.mp hr' with ⟨p, _hp, hren⟩
  rcases Option.map_eq_some'.mp hren with ⟨m, hm, hfm⟩
  subst hfm
  exact ⟨m, hm, rfl, rfl, rfl, rfl⟩

/-- Witness for the no-fabrication theorem at the scenario index and the
query `composable`. -/
theorem search_results_indexed_witness :
    (⟨0, 1, "/docs/a", "intro", "Intro", "Alpha"⟩ : SearchResult) ∈
        search "composable" (buildIndex scenarioDocs) ∧
      ∃ m : SectionMeta, (buildIndex scenarioDocs).table.get? 0 = some m ∧
        "/docs/a" = m.path ∧ "intro" = m.anchor ∧ "Intro" = m.heading ∧
        "Alpha" = m.title :=
  ⟨by decide,
    search_results_indexed "composable" (buildIndex scenarioDocs)
      ⟨0, 1, "/docs/a", "intro", "Intro", "Alpha"⟩ (by decide)⟩

/-- C8: search output is sorted descending by score with ties broken by
document order (lower section id first), and never exceeds the fixed
maximum result count. -/
theorem search_sorted_bounded (q : String) (idx : SerializedIndex) :
    (search q idx).length ≤ maxResults ∧
      (search q idx).Pairwise
        (fun a b => b.score < a.score ∨ (a.score = b.score ∧ a.id ≤ b.id)) := by
  constructor
  · have h1 : (search q idx).length ≤
        ((List.insertionSort resRel ((candidateIds idx (tokenize q)).map
          (fun i => (i, score idx (tokenize q) i)))).take maxResults).length :=
      List.length_filterMap_le _ _
    have h2 : ((List.insertionSort resRel ((candidateIds idx (tokenize q)).map
        (fun i => (i, score idx (tokenize q) i)))).take maxResults).length ≤ maxResults := by
      rw [List.length_take]
      omega
    omega
  · have hsorted : (List.insertionSort resRel ((candidateIds idx (tokenize q)).map
        (fun i => (i, score idx (tokenize q) i)))).Pairwise resRel :=
      List.sorted_insertionSort resRel _
    have htake : ((List.insertionSort resRel ((candidateIds idx (tokenize q)).map
        (fun i => (i, score idx (tokenize q) i)))).take maxResults).Pairwise resRel :=
      hsorted.sublist (List.take_sublist _ _)
    show (((List.insertionSort resRel ((candidateIds idx (tokenize q)).map
        (fun i => (i, score idx (tokenize q) i)))).take maxResults).filterMap
          (renderResult idx)).Pairwise _
    rw [List.pairwise_filterMap]
    refine htake.imp ?_
    intro p p' hpp r hr r' hr'
    rcases Option.map_eq_some'.mp (Option.mem_def.mp hr) with ⟨m, _, hfm⟩
    rcases Option.map_eq_some'.mp (Option.mem_def.mp hr') with ⟨m', _, hfm'⟩
    subst hfm
    subst hfm'
    exact hpp

theorem candidateIds_single (idx : SerializedIndex) (t : String) :
    candidateIds idx [t] = dedupFirst (lookupEntry idx.entries t) := by
  simp [candidateIds]

theorem dedupFirst_eq_self [DecidableEq α] {l : List α} (h : l.Nodup) :
    dedupFirst l = l :=
  dedupAux_eq_self h (by simp)

/-- C4 (amended): single-token recall holds up to the result bound: if a
token occurs in a Section's body and at most `maxResults` sections
contain the token, then any query tokenizing to exactly that token
returns that Section, with its path and anchor. -/
theorem single_token_recall (docs : List Document) (k : Nat) (t q : String)
    (hk : k < (sectionsOf docs).length)
    (ht : t ∈ tokenize ((sectionsOf docs).get ⟨k, hk⟩).2.body)
    (hq : tokenize q = [t])
    (hcount : ((sectionsOf docs).filter
        (fun p => decide (t ∈ secTokens p.2))).length ≤ maxResults) :
    ∃ r ∈ search q (buildIndex docs), r.id = k ∧
      r.path = ((sectionsOf docs).get ⟨k, hk⟩).1.path ∧
      r.anchor = ((sectionsOf docs).get ⟨k, hk⟩).2.anchor := by
  have hsec_t : t ∈ secTokens ((sectionsOf docs).get ⟨k, hk⟩).2 :=
    List.mem_append.mpr (Or.inr ht)
  have hmemhit : k ∈ hitIds t 0 (sectionsOf docs) := by
    have := hitIds_mem_of_get (sectionsOf docs) 0 k hk t hsec_t
    simpa using this
  have hcand : candidateIds (buildIndex docs) [t] = hitIds t 0 (sectionsOf docs) := by
    rw [candidateIds_single, lookupEntry_buildIndex,
      dedupFirst_eq_self (hitIds_nodup (sectionsOf docs) 0 t)]
  have hsearch : search q (buildIndex docs) =
      ((List.insertionSort resRel ((hitIds t 0 (sectionsOf docs)).map
        (fun i => (i, score (buildIndex docs) [t] i)))).take maxResults).filterMap
          (renderResult (buildIndex docs)) := by
    show ((List.insertionSort resRel ((candidateIds (buildIndex docs) (tokenize q)).map
        (fun i => (i, score (buildIndex docs) (tokenize q) i)))).take maxResults).filterMap
          (renderResult (buildIndex docs)) = _
    rw [hq, hcand]
  have hlen : (List.insertionSort resRel ((hitIds t 0 (sectionsOf docs)).map
      (fun i => (i, score (buildIndex docs) [t] i)))).length ≤ maxResults := by
    rw [List.length_insertionSort, List.length_map, hitIds_length_eq]
    exact hcount
  have htake : (List.insertionSort resRel ((hitIds t 0 (sectionsOf docs)).map
      (fun i => (i, score (buildIndex docs) [t] i)))).take maxResults =
      List.insertionSort resRel ((hitIds t 0 (sectionsOf docs)).map
        (fun i => (i, score (buildIndex docs) [t] i))) :=
    List.take_of_length_le hlen
  have hmem_sorted : (k, score (buildIndex docs) [t] k) ∈
      List.insertionSort resRel ((hitIds t 0 (sectionsOf docs)).map
        (fun i => (i, score (buildIndex docs) [t] i))) :=
    (List.mem_insertionSort resRel).mpr (List.mem_map_of_mem _ hmemhit)
  have hget : (buildIndex docs).table.get? k =
      some (metaOf ((sectionsOf docs).get ⟨k, hk⟩)) := by
    show ((sectionsOf docs).map metaOf).get? k = _
    rw [List.get?_eq_getElem?, List.getElem?_map, List.getElem?_eq_getElem hk]
    rfl
  have hrender : renderResult (buildIndex docs) (k, score (buildIndex docs) [t] k) =
      some ⟨k, score (buildIndex docs) [t] k,
        ((sectionsOf docs).get ⟨k, hk⟩).1.path,
        ((sectionsOf docs).get ⟨k, hk⟩).2.anchor,
        ((sectionsOf docs).get ⟨k, hk⟩).2.heading,
        ((sectionsOf docs).get ⟨k, hk⟩).1.title⟩ := by
    rw [renderResult, hget]
    rfl
  refine ⟨⟨k, score (buildIndex docs) [t] k,
      ((sectionsOf docs).get ⟨k, hk⟩).1.path,
      ((sectionsOf docs).get ⟨k, hk⟩).2.anchor,
      ((sectionsOf docs).get ⟨k, hk⟩).2.heading,
      ((sectionsOf docs).get ⟨k, hk⟩).1.title⟩, ?_, rfl, rfl, rfl⟩
  rw [hsearch, htake]
  exact List.mem_filterMap.mpr ⟨(k, score (buildIndex docs) [t] k), hmem_sorted, hrender⟩

/-- Witness for the amended recall theorem at the specification's
scenario: query `composable` retrieves the `Intro` section of `/docs/a`. -/
theorem single_token_recall_witness :
    "composable" ∈ tokenize ((sectionsOf scenarioDocs).get ⟨0, by decide⟩).2.body ∧
      tokenize "composable" = ["composable"] ∧
      ((sectionsOf scenarioDocs).filter
        (fun p => decide ("composable" ∈ secTokens p.2))).length ≤ maxResults ∧
      ∃ r ∈ search "composable" (buildIndex scenarioDocs), r.id = 0 ∧
        r.path = ((sectionsOf scenarioDocs).get ⟨0, by decide⟩).1.path ∧
        r.anchor = ((sectionsOf scenarioDocs).get ⟨0, by decide⟩).2.anchor :=
  ⟨by decide, by decide, by decide,
    single_token_recall scenarioDocs 0 "composable" "composable"
      (by decide) (by decide) (by decide) (by decide)⟩

/-- C4 (counterexample): universal recall fails once more sections match
a token than the result bound: in `sixDocs` every section's body contains
`x`, yet the section with id 5 is missing from the results of query `x`. -/
theorem single_token_recall_cex :
    "x" ∈ tokenize ((sectionsOf sixDocs).get ⟨5, by decide⟩).2.body ∧
      ¬ ∃ r ∈ search "x" (buildIndex sixDocs), r.id = 5 :=
  ⟨by decide, by decide⟩

end Writing
